import Mathlib

/-!
Verification development for the echogram rasterization and
interactive-aggregation scripts (`plot-shaders.py`, `plot2.py`,
`app--old.py`).

Conventions of the shallow embedding:
* sample values are rationals; a missing value (`NaN` in the Python
  sources) is `none : Option ℚ`;
* the `xarray` dataset slice handled by `update_range_sample_with_depth`
  is the structure `SvData` below: coordinate lists `channel`,
  `ping_time`, `range_sample`, the per-(channel, ping_time) offset
  profile `echo_range`, and the `Sv` value cube;
* library calls made by the sources are embedded with their exact
  semantics on exact numbers: `numpy.histogram` (uniform bins over the
  data extent), `numpy.nanmin`/`numpy.nanmax` (ignore `NaN`; all-`NaN`
  input yields `NaN`, not an error), datashader's `mean` aggregator
  (per-cell mean of the non-`NaN` samples falling in the cell, `NaN`
  for an empty cell), and matplotlib's `ListedColormap` lookup with
  `set_under`/`set_over` clamp colors.
-/

/- Batteries marks the `Rat` field operations `@[irreducible]`; re-allow
unfolding them in this file so that concrete witnesses and
counterexamples evaluate by `decide`. -/
attribute [local semireducible] Rat.mul Rat.add Rat.sub Rat.inv

/-- The dataset slice consumed by `update_range_sample_with_depth`:
coordinates `channel`, `ping_time`, `range_sample`, the echo-range
offset profile indexed by (channel, ping_time), and the Sv value cube
(channel × ping_time × range_sample, `none` = NaN). -/
structure SvData where
  channel : List ℕ
  ping_time : List ℚ
  range_sample : List ℚ
  echo_range : ℕ → ℚ → List ℚ
  Sv : List (List (List (Option ℚ)))

/-- The fixed transducer offset added by the source: `value + 8.6`. -/
def transducerOffset : ℚ := 8.6

/-- Embedding of `update_range_sample_with_depth` (plot-shaders.py,
lines 102–114): select the echo-range profile of the first channel at
the first ping time, add the 8.6 m transducer offset to each entry, and
assign the result as the new `range_sample` coordinate.  Nothing else
in the dataset is touched. -/
def update_range_sample_with_depth (d : SvData) : SvData :=
  let first_channel := d.channel.headD 0
  let first_ping_time := d.ping_time.headD 0
  let selected_echo_range := d.echo_range first_channel first_ping_time
  let depth := selected_echo_range.map (fun v => v + transducerOffset)
  { d with range_sample := depth }

/-- Claim C2. For every dataset with a nonempty channel and ping-time
axis, the corrected depth at range index `i` is the selected offset
profile entry at `i` plus the scalar instrument offset 8.6 m, and the
output depth axis has the same length as the offset profile. -/
theorem C2_depth_correction (d : SvData) (i : ℕ)
    (hch : d.channel ≠ []) (hpt : d.ping_time ≠ [])
    (hi : i < (d.echo_range (d.channel.headD 0) (d.ping_time.headD 0)).length) :
    (update_range_sample_with_depth d).range_sample.length
        = (d.echo_range (d.channel.headD 0) (d.ping_time.headD 0)).length ∧
    (update_range_sample_with_depth d).range_sample.getD i 0
        = (d.echo_range (d.channel.headD 0) (d.ping_time.headD 0)).getD i 0
            + transducerOffset := by
  constructor
  · simp [update_range_sample_with_depth]
  · simp only [update_range_sample_with_depth]
    rw [List.getD_eq_getElem _ _ (by simpa using hi),
      List.getD_eq_getElem _ _ hi]
    simp

/-- Concrete instantiation of `C2_depth_correction`: a one-channel,
one-ping dataset whose offset profile is `[1, 2]`; index 1 is mapped to
`2 + 8.6 = 10.6`. -/
theorem C2_depth_correction_witness :
    (update_range_sample_with_depth
        ⟨[7], [0], [0, 1], fun _ _ => [1, 2], [[[some 3, some 4]]]⟩).range_sample.length = 2 ∧
    (update_range_sample_with_depth
        ⟨[7], [0], [0, 1], fun _ _ => [1, 2], [[[some 3, some 4]]]⟩).range_sample.getD 1 0
      = 2 + transducerOffset := by
  have h := C2_depth_correction
    ⟨[7], [0], [0, 1], fun _ _ => [1, 2], [[[some 3, some 4]]]⟩ 1
    (by decide) (by decide) (by decide)
  exact ⟨h.1, h.2.trans (by norm_num)⟩

/-- Claim C9. Depth correction is frame-preserving outside the
`range_sample` coordinate: the Sv values, the `ping_time` coordinate,
the `channel` coordinate and the `echo_range` variable of the result
are identical to those of the input. -/
theorem C9_depth_correction_frame (d : SvData) :
    (update_range_sample_with_depth d).Sv = d.Sv ∧
    (update_range_sample_with_depth d).ping_time = d.ping_time ∧
    (update_range_sample_with_depth d).channel = d.channel ∧
    (update_range_sample_with_depth d).echo_range = d.echo_range := by
  exact ⟨rfl, rfl, rfl, rfl⟩

/-- Claim C10. The new depth axis is derived solely from the offset
profile of the first channel at the first ping time: it equals that one
profile shifted by 8.6 m, and any two datasets agreeing on the head of
the channel axis, the head of the ping-time axis and that single
profile receive the same depth axis, no matter how their profiles
differ at every other (channel, ping time). -/
theorem C10_depth_axis_first_profile_only (d d' : SvData)
    (hch : d.channel.headD 0 = d'.channel.headD 0)
    (hpt : d.ping_time.headD 0 = d'.ping_time.headD 0)
    (hprof : d.echo_range (d.channel.headD 0) (d.ping_time.headD 0)
        = d'.echo_range (d'.channel.headD 0) (d'.ping_time.headD 0)) :
    (update_range_sample_with_depth d).range_sample
        = (d.echo_range (d.channel.headD 0) (d.ping_time.headD 0)).map
            (fun v => v + transducerOffset) ∧
    (update_range_sample_with_depth d).range_sample
        = (update_range_sample_with_depth d').range_sample := by
  refine ⟨rfl, ?_⟩
  simp only [update_range_sample_with_depth]
  rw [hprof]

/-- Concrete instantiation of `C10_depth_axis_first_profile_only`: two
datasets sharing only the first-channel first-ping profile `[1]` (the
second dataset's profile at every other ping is `[5]`) are assigned the
same depth axis `[9.6]`. -/
theorem C10_depth_axis_first_profile_only_witness :
    (update_range_sample_with_depth
        ⟨[3], [0, 1], [0], fun _ _ => [1], [[[some 2], [some 2]]]⟩).range_sample
      = (update_range_sample_with_depth
        ⟨[3], [0, 1], [0], fun _ t => if t = 0 then [1] else [5],
          [[[none], [none]]]⟩).range_sample := by
  have h := C10_depth_axis_first_profile_only
    ⟨[3], [0, 1], [0], fun _ _ => [1], [[[some 2], [some 2]]]⟩
    ⟨[3], [0, 1], [0], fun _ t => if t = 0 then [1] else [5], [[[none], [none]]]⟩
    (by decide) (by decide) (by norm_num)
  exact h.2

/-- One channel's sample grid: ordered `ping_time` coordinates, ordered
`range_sample` coordinates, and the value matrix (`none` = NaN). -/
structure SampleGrid where
  times : List ℚ
  ranges : List ℚ
  values : List (List (Option ℚ))

/-- One sample as seen by the rasterizer: (time coordinate, depth
coordinate, value). -/
abbrev Sample := ℚ × ℚ × Option ℚ

/-- The stream of (time, depth, value) samples a grid feeds into the
datashader canvas. -/
def gridSamples (g : SampleGrid) : List Sample :=
  (g.times.zip g.values).flatMap
    (fun tv => (g.ranges.zip tv.2).map (fun rv => (tv.1, rv.1, rv.2)))

/-- The row-major flattening of the value matrix (`sv_values` as a flat
numpy array). -/
def gridFlatten (g : SampleGrid) : List (Option ℚ) := g.values.flatten

/-- One step of datashader's `mean` reduction: a NaN sample is skipped;
a finite sample adds its value to the running sum and bumps the count
of the one cell the canvas maps its (time, depth) coordinates to. -/
def aggStep (cellOf : ℚ → ℚ → ℕ × ℕ) (acc : ℕ × ℕ → ℚ × ℕ) (s : Sample) :
    ℕ × ℕ → ℚ × ℕ :=
  match s.2.2 with
  | none => acc
  | some v => fun c =>
      if c = cellOf s.1 s.2.1 then ((acc c).1 + v, (acc c).2 + 1) else acc c

/-- Embedding of `rasterize(hv_quadmesh, aggregator=ds.mean('Sv'))`
(plot-shaders.py, line 125): a single pass over the samples accumulates
a per-cell (sum, count) pair, and each raster cell is finalized to
sum / count, or NaN when its count is zero.  `cellOf` is the canvas's
map from data coordinates to the pixel cell containing them. -/
def aggregate (cellOf : ℚ → ℚ → ℕ × ℕ) (samples : List Sample) :
    ℕ × ℕ → Option ℚ :=
  let acc := samples.foldl (aggStep cellOf) (fun _ => (0, 0))
  fun c => if (acc c).2 = 0 then none else some ((acc c).1 / (acc c).2)

/-- The non-NaN sample values whose (time, depth) coordinates fall in
cell `c` — the contributors to that cell, in stream order. -/
def contribVals (cellOf : ℚ → ℚ → ℕ × ℕ) (samples : List Sample)
    (c : ℕ × ℕ) : List ℚ :=
  samples.filterMap (fun s =>
    match s.2.2 with
    | none => none
    | some v => if cellOf s.1 s.2.1 = c then some v else none)

/-- The mean of a list of rationals, `none` on the empty list. -/
def listMean (vs : List ℚ) : Option ℚ :=
  if vs = [] then none else some (vs.sum / vs.length)

theorem foldl_aggStep (cellOf : ℚ → ℚ → ℕ × ℕ) (samples : List Sample) :
    ∀ (acc : ℕ × ℕ → ℚ × ℕ) (c : ℕ × ℕ),
      (samples.foldl (aggStep cellOf) acc) c
        = ((acc c).1 + (contribVals cellOf samples c).sum,
           (acc c).2 + (contribVals cellOf samples c).length) := by
  induction samples with
  | nil => intro acc c; simp [contribVals]
  | cons s ss ih =>
    intro acc c
    obtain ⟨t, r, v⟩ := s
    match v with
    | none =>
      simpa [contribVals, aggStep] using ih acc c
    | some v =>
      by_cases hc : cellOf t r = c
      · have := ih (aggStep cellOf acc (t, r, some v)) c
        rw [List.foldl_cons, this]
        simp only [contribVals, aggStep, List.filterMap_cons]
        rw [if_pos hc, if_pos hc.symm]
        simp only [List.sum_cons, List.length_cons, Prod.mk.injEq]
        constructor <;> [ring; omega]
      · have := ih (aggStep cellOf acc (t, r, some v)) c
        rw [List.foldl_cons, this]
        simp only [contribVals, aggStep, List.filterMap_cons]
        rw [if_neg hc, if_neg (fun h => hc h.symm)]

/-- Claim C1. For every sample grid and every canvas cell map, the
datashader `mean` aggregation assigns each raster cell the mean of the
non-NaN sample values whose (time, depth) coordinates fall in that
cell, and a cell with zero contributing samples holds NaN (`none`). -/
theorem C1_aggregation_is_mean (g : SampleGrid) (cellOf : ℚ → ℚ → ℕ × ℕ)
    (c : ℕ × ℕ) :
    aggregate cellOf (gridSamples g) c
      = listMean (contribVals cellOf (gridSamples g) c) ∧
    (contribVals cellOf (gridSamples g) c = [] →
      aggregate cellOf (gridSamples g) c = none) := by
  have hfold := foldl_aggStep cellOf (gridSamples g) (fun _ => (0, 0)) c
  have hmain : aggregate cellOf (gridSamples g) c
      = listMean (contribVals cellOf (gridSamples g) c) := by
    simp only [aggregate, hfold, listMean]
    rcases h : contribVals cellOf (gridSamples g) c with _ | ⟨v, vs⟩
    · simp
    · simp
  exact ⟨hmain, fun h => by rw [hmain, h, listMean]; simp⟩


/-- Embedding of `numpy.nanmin` on exact numbers: the minimum of the non-NaN entries,
or NaN (`none`) when every entry is NaN.  (NumPy emits an "All-NaN slice
encountered" warning in that case and returns NaN; it does not raise.) -/
def np_nanmin (xs : List (Option ℚ)) : Option ℚ :=
  match xs.filterMap id with
  | [] => none
  | v :: vs => some (vs.foldl min v)

/-- Embedding of `numpy.nanmax`, dual to `np_nanmin`. -/
def np_nanmax (xs : List (Option ℚ)) : Option ℚ :=
  match xs.filterMap id with
  | [] => none
  | v :: vs => some (vs.foldl max v)

/-- What `create_plot` hands to the display: the rasterized mesh (the
per-cell aggregate) and the color limits `clim`. -/
structure PlotResult where
  clim : Option ℚ × Option ℚ
  raster : ℕ × ℕ → Option ℚ

/-- Embedding of `create_plot` (plot-shaders.py, lines 116–139): build
the quadmesh from the grid, rasterize it with the `mean` aggregator,
and set `clim = (np.nanmin(sv_values), np.nanmax(sv_values))`.  The
function is total: no input, all-NaN grids included, makes it fail. -/
def create_plot (cellOf : ℚ → ℚ → ℕ × ℕ) (g : SampleGrid) : PlotResult :=
  { clim := (np_nanmin (gridFlatten g), np_nanmax (gridFlatten g)),
    raster := aggregate cellOf (gridSamples g) }

/-- A one-cell canvas map, used to instantiate counterexamples. -/
def cellZero : ℚ → ℚ → ℕ × ℕ := fun _ _ => (0, 0)

/-- A concrete 1×1 all-NaN sample grid. -/
def allNaNGrid : SampleGrid := ⟨[0], [0], [[none]]⟩

theorem gridSamples_value_mem (g : SampleGrid) :
    ∀ s ∈ gridSamples g, ∃ row ∈ g.values, s.2.2 ∈ row := by
  intro s hs
  simp only [gridSamples, List.mem_flatMap] at hs
  obtain ⟨tv, htv, hsm⟩ := hs
  simp only [List.mem_map] at hsm
  obtain ⟨rv, hrv, rfl⟩ := hsm
  exact ⟨tv.2, (List.of_mem_zip htv).2, (List.of_mem_zip hrv).2⟩

/-- Claim C7, counterexample. On the all-NaN 1×1 grid, `create_plot`
does not fail with an `EmptyDataset` error (no such error exists in the
code): it returns normally, with NaN color limits and an all-NaN raster
cell. -/
theorem C7_counterexample :
    create_plot cellZero allNaNGrid
      = { clim := (none, none), raster := aggregate cellZero (gridSamples allNaNGrid) } ∧
    (create_plot cellZero allNaNGrid).raster (0, 0) = none := by
  constructor
  · rfl
  · decide

/-- Claim C7, amended. For every sample grid whose values are all NaN,
`create_plot` succeeds instead of failing: `np.nanmin`/`np.nanmax` give
NaN color limits and every raster cell aggregates to NaN. -/
theorem C7_all_nan_yields_nan_plot (cellOf : ℚ → ℚ → ℕ × ℕ)
    (g : SampleGrid) (hnan : ∀ row ∈ g.values, ∀ v ∈ row, v = none) :
    (create_plot cellOf g).clim = (none, none) ∧
    ∀ c, (create_plot cellOf g).raster c = none := by
  have hflat : (gridFlatten g).filterMap id = [] := by
    rw [List.filterMap_eq_nil_iff]
    intro a ha
    simp only [gridFlatten, List.mem_flatten] at ha
    obtain ⟨row, hrow, hmem⟩ := ha
    exact hnan row hrow a hmem
  constructor
  · simp only [create_plot, np_nanmin, np_nanmax, hflat]
  · intro c
    have hcontrib : contribVals cellOf (gridSamples g) c = [] := by
      rw [contribVals, List.filterMap_eq_nil_iff]
      intro s hs
      obtain ⟨row, hrow, hmem⟩ := gridSamples_value_mem g s hs
      have : s.2.2 = none := hnan row hrow _ hmem
      rw [this]
    have hfold := foldl_aggStep cellOf (gridSamples g) (fun _ => (0, 0)) c
    simp only [create_plot, aggregate, hfold, hcontrib]
    simp

/-- Concrete instantiation of `C7_all_nan_yields_nan_plot` on the 1×1
all-NaN grid with the one-cell canvas. -/
theorem C7_all_nan_yields_nan_plot_witness :
    (create_plot cellZero allNaNGrid).clim = (none, none) ∧
    (create_plot cellZero allNaNGrid).raster (0, 0) = none := by
  have h := C7_all_nan_yields_nan_plot cellZero allNaNGrid (by decide)
  exact ⟨h.1, h.2 (0, 0)⟩

/-- numpy's uniform histogram bin edges: `linspace(first, last, n + 1)`. -/
def npEdges (first last : ℚ) (n : ℕ) : List ℚ :=
  (List.range (n + 1)).map (fun k : ℕ => first + (k : ℚ) * (last - first) / (n : ℚ))

/-- The bin numpy assigns a value `v` for `n` uniform bins over
`[first, last]`: truncate `(v - first) * n / (last - first)` and remap
the exact hit `n` (only `v = last` in range) to the last bin `n - 1`. -/
def histBinIndex (first last : ℚ) (n : ℕ) (v : ℚ) : ℕ :=
  let k := ((v - first) * n / (last - first)).floor.toNat
  if n ≤ k then n - 1 else k

theorem ratFloor_eq_floor (q : ℚ) : q.floor = ⌊q⌋ :=
  (Rat.floor_def' q).trans Rat.floor_def.symm

/-- The minimum of `v :: vs`. -/
def listMin (v : ℚ) (vs : List ℚ) : ℚ := vs.foldl min v

/-- The maximum of `v :: vs`. -/
def listMax (v : ℚ) (vs : List ℚ) : ℚ := vs.foldl max v

/-- numpy's automatic histogram extent for the nonempty data
`v :: vs`: `(min, max)`, widened to `(min - 0.5, max + 0.5)` when the
data is constant. -/
def histExtent (v : ℚ) (vs : List ℚ) : ℚ × ℚ :=
  if listMin v vs = listMax v vs then (listMin v vs - 1/2, listMax v vs + 1/2)
  else (listMin v vs, listMax v vs)

/-- Embedding of `numpy.histogram(values, bins=n)` on exact numbers.
A NaN among the values makes the automatic range non-finite and numpy
raises `ValueError` (`none` here).  Empty data histograms over the
default range `(0, 1)` with every count zero.  Otherwise the counts
are taken with `histBinIndex` over the automatic extent. -/
def npHistogram (values : List (Option ℚ)) (n : ℕ) :
    Option (List ℕ × List ℚ) :=
  if values.any (fun v => v.isNone) then none
  else
    match values.filterMap id with
    | [] => some (List.replicate n 0, npEdges 0 1 n)
    | v :: vs =>
      let e := histExtent v vs
      some ((List.range n).map (fun k =>
          (v :: vs).countP (fun x => histBinIndex e.1 e.2 n x = k)),
        npEdges e.1 e.2 n)

/-- numpy fancy indexing `sv_flat[selection]`.  Out-of-range indices
raise in numpy; they are never reached by the theorems below, which
only evaluate `getD` in range. -/
def gatherFlat (sv_flat : List (Option ℚ)) (selection : List ℕ) :
    List (Option ℚ) :=
  selection.map (fun i => sv_flat.getD i none)

/-- The fixed histogram bin count of the source: `bins=50`. -/
def histBins : ℕ := 50

/-- Embedding of `update_histogram` (plot-shaders.py, lines 141–147):
a nonempty selection gathers `sv_data.flatten()[selection]` and
histograms it with 50 bins; an empty selection histograms the empty
array with 50 bins. -/
def update_histogram (selection : List ℕ) (sv_flat : List (Option ℚ)) :
    Option (List ℕ × List ℚ) :=
  if selection ≠ [] then npHistogram (gatherFlat sv_flat selection) histBins
  else npHistogram [] histBins

/-- Claim C3. For every flattened sample array, an empty selection makes
the histogram computation succeed (no error): the result has exactly
the configured default of 50 bins and every bin count is 0. -/
theorem C3_empty_selection_zero_histogram (sv_flat : List (Option ℚ)) :
    ∃ h, update_histogram [] sv_flat = some h ∧
      h.1.length = 50 ∧ (∀ cnt ∈ h.1, cnt = 0) ∧ histBins = 50 := by
  refine ⟨(List.replicate histBins 0, npEdges 0 1 histBins), ?_, ?_, ?_, rfl⟩
  · rfl
  · simp [histBins]
  · intro cnt hcnt
    exact List.eq_of_mem_replicate hcnt

theorem sum_indicator_range (n j : ℕ) :
    ((List.range n).map (fun k => if j = k then 1 else 0)).sum
      = if j < n then 1 else 0 := by
  induction n with
  | zero => simp
  | succ n ih =>
    rw [List.range_succ, List.map_append, List.sum_append, ih]
    rcases lt_trichotomy j n with h | h | h
    · have hne : j ≠ n := Nat.ne_of_lt h
      simp [h, Nat.lt_succ_of_lt h, hne]
    · subst h
      simp
    · have h1 : ¬ j < n := Nat.not_lt.mpr (Nat.le_of_lt h)
      have h2 : ¬ j < n + 1 := Nat.not_lt.mpr h
      have hne : j ≠ n := Nat.ne_of_gt h
      simp [h1, h2, hne]

theorem sum_map_add {α : Type} (r : List α) (a b : α → ℕ) :
    (r.map (fun k => a k + b k)).sum = (r.map a).sum + (r.map b).sum := by
  induction r with
  | nil => simp
  | cons x r ih => simp [ih]; omega

theorem sum_countP_range (f : ℚ → ℕ) (n : ℕ) (l : List ℚ)
    (h : ∀ x ∈ l, f x < n) :
    ((List.range n).map (fun k => l.countP (fun x => f x = k))).sum
      = l.length := by
  induction l with
  | nil => simp
  | cons x l ih =>
    have hx : f x < n := h x (List.mem_cons_self x l)
    have hl : ∀ y ∈ l, f y < n := fun y hy => h y (List.mem_cons_of_mem x hy)
    simp only [List.countP_cons, decide_eq_true_eq]
    rw [sum_map_add (List.range n)
      (fun k => l.countP (fun y => f y = k))
      (fun k => if f x = k then 1 else 0)]
    rw [ih hl, sum_indicator_range n (f x), if_pos hx, List.length_cons]

theorem histBinIndex_lt (first last : ℚ) (n : ℕ) (hn : 0 < n) (v : ℚ) :
    histBinIndex first last n v < n := by
  rw [histBinIndex]
  split <;> omega

theorem histBinIndex_edge (mn mx : ℚ) (n k : ℕ) (hn : 0 < n) (hk : k < n)
    (hlt : mn < mx) :
    histBinIndex mn mx n (mn + k * (mx - mn) / n) = k := by
  have hd : mx - mn ≠ 0 := sub_ne_zero.mpr (ne_of_gt hlt)
  have hnq : (n : ℚ) ≠ 0 := Nat.cast_ne_zero.mpr (Nat.pos_iff_ne_zero.mp hn)
  have hx : (mn + k * (mx - mn) / n - mn) * n / (mx - mn) = (k : ℚ) := by
    field_simp
    ring
  rw [histBinIndex, hx]
  simp only [ratFloor_eq_floor, Int.floor_natCast, Int.toNat_natCast]
  rw [if_neg (Nat.not_le.mpr hk)]

theorem histBinIndex_max (mn mx : ℚ) (n : ℕ) (hn : 0 < n) (hlt : mn < mx) :
    histBinIndex mn mx n mx = n - 1 := by
  have hd : mx - mn ≠ 0 := sub_ne_zero.mpr (ne_of_gt hlt)
  have hx : (mx - mn) * n / (mx - mn) = (n : ℚ) := by field_simp
  rw [histBinIndex, hx]
  simp only [ratFloor_eq_floor, Int.floor_natCast, Int.toNat_natCast]
  rw [if_pos (Nat.le_refl n)]

/-- The bin assignment as the spec words it: a value lying exactly on
an interior bin boundary is counted in the LOWER of the two adjacent
bins, except the maximum value, which belongs to the last bin; other
values follow the clamped floor rule.  (Second definition, written
from the spec's words, to be compared with `histBinIndex`.) -/
def specLowerTieBinIndex (first last : ℚ) (n : ℕ) (v : ℚ) : ℕ :=
  if v = last then n - 1
  else
    let x := (v - first) * n / (last - first)
    if (x.floor : ℚ) = x ∧ 0 < x.floor then x.floor.toNat - 1
    else min x.floor.toNat (n - 1)

theorem npEdges_getD (first last : ℚ) (n k : ℕ) (hk : k < n + 1) :
    (npEdges first last n).getD k 0 = first + k * (last - first) / n := by
  have hk2 : k < ((List.range (n + 1)).map
      (fun j : ℕ => first + (j : ℚ) * (last - first) / (n : ℚ))).length := by
    rw [List.length_map, List.length_range]
    exact hk
  rw [npEdges, List.getD_eq_getElem _ _ hk2, List.getElem_map,
    List.getElem_range]

theorem foldl_min_le (b : ℚ) (l : List ℚ) :
    List.foldl min b l ≤ b ∧ ∀ x ∈ l, List.foldl min b l ≤ x := by
  induction l generalizing b with
  | nil => exact ⟨le_refl b, by intro x hx; simp at hx⟩
  | cons w ws ih =>
    simp only [List.foldl_cons]
    refine ⟨le_trans (ih (min b w)).1 (min_le_left b w), ?_⟩
    intro x hx
    rcases List.mem_cons.mp hx with rfl | hx2
    · exact le_trans (ih (min b x)).1 (min_le_right b x)
    · exact (ih (min b w)).2 x hx2

theorem le_foldl_max (b : ℚ) (l : List ℚ) :
    b ≤ List.foldl max b l ∧ ∀ x ∈ l, x ≤ List.foldl max b l := by
  induction l generalizing b with
  | nil => exact ⟨le_refl b, by intro x hx; simp at hx⟩
  | cons w ws ih =>
    simp only [List.foldl_cons]
    refine ⟨le_trans (le_max_left b w) (ih (max b w)).1, ?_⟩
    intro x hx
    rcases List.mem_cons.mp hx with rfl | hx2
    · exact le_trans (le_max_right b x) (ih (max b x)).1
    · exact (ih (max b w)).2 x hx2

theorem histBinIndex_degenerate (m : ℚ) (n : ℕ) (hn : 0 < n) :
    histBinIndex (m - 1/2) (m + 1/2) n m = n / 2 := by
  have hx : (m - (m - 1/2)) * n / ((m + 1/2) - (m - 1/2)) = (n : ℚ) / 2 := by
    ring
  have hmod : 2 * (n / 2) + n % 2 = n := Nat.div_add_mod n 2
  have hmod2 : n % 2 < 2 := Nat.mod_lt n (by norm_num)
  have hcast : ((n : ℚ)) = 2 * ((n / 2 : ℕ) : ℚ) + ((n % 2 : ℕ) : ℚ) := by
    exact_mod_cast congrArg (Nat.cast : ℕ → ℚ) hmod.symm
  have hm2 : ((n % 2 : ℕ) : ℚ) < 2 := by exact_mod_cast hmod2
  have hm0 : (0 : ℚ) ≤ ((n % 2 : ℕ) : ℚ) := by positivity
  have hfl : ⌊(n : ℚ) / 2⌋ = ((n / 2 : ℕ) : ℤ) := by
    rw [Int.floor_eq_iff]
    simp only [Int.cast_natCast]
    constructor <;> linarith
  rw [histBinIndex, hx]
  simp only [ratFloor_eq_floor]
  rw [hfl, Int.toNat_natCast]
  have hlt2 : n / 2 < n := Nat.div_lt_self hn (by norm_num)
  rw [if_neg (by omega)]

/-- Claim C4, counterexample. Two refutations of the spec wording.
Tie rule: for the data `[0, 1, 2]` with 2 bins the edges are
`[0, 1, 2]` and numpy counts the interior boundary value `1` (which is
not the maximum) in the UPPER bin — counts `[1, 2]` — whereas the
spec's lower-bin tie rule would put `1` in bin 0 and yield `[2, 1]`.
Degenerate extent: for the single gathered value `[5]` with 4 bins,
numpy widens the range to `(4.5, 5.5)`, so the edges do not span
`[min, max] = [5, 5]` and the maximum value `5` lands in the middle
bin 2, not the last bin 3. -/
theorem C4_counterexample :
    npHistogram [some 0, some 1, some 2] 2 = some ([1, 2], [0, 1, 2]) ∧
    histBinIndex 0 2 2 1 = 1 ∧
    specLowerTieBinIndex 0 2 2 1 = 0 ∧
    (1 : ℚ) ≠ 2 ∧
    npHistogram [some 5] 4 = some ([0, 0, 1, 0], npEdges (9/2) (11/2) 4) ∧
    histBinIndex (9/2) (11/2) 4 5 = 2 := by
  refine ⟨by decide, by decide, by decide, by norm_num, by decide, by decide⟩

/-- Claim C4, amended. For every nonempty NaN-free list of gathered
values, `numpy.histogram` with `n` bins returns exactly `n` counts over
`n + 1` equal-width edges spanning the automatic extent, and every
value is counted in exactly one bin (the counts sum to the data size).
When `min < max`, the extent is exactly `[min, max]`, its endpoints are
the first and last edge, a value lying exactly on a bin boundary is
counted in the UPPER adjacent bin (the bin whose lower edge it is), and
the maximum value is counted in the last bin.  When all gathered values
are equal, the extent is widened to `[min - 1/2, max + 1/2]` and the
single value (also the maximum) is counted in the middle bin `n / 2`,
not the last bin. -/
theorem C4_histogram_binning (v : ℚ) (vs : List ℚ) (n : ℕ) (hn : 0 < n) :
    npHistogram ((v :: vs).map some) n
      = some ((List.range n).map (fun k => (v :: vs).countP
            (fun x => histBinIndex (histExtent v vs).1 (histExtent v vs).2 n x
              = k)),
          npEdges (histExtent v vs).1 (histExtent v vs).2 n) ∧
    ((List.range n).map (fun k => (v :: vs).countP
        (fun x => histBinIndex (histExtent v vs).1 (histExtent v vs).2 n x
          = k))).length = n ∧
    ((List.range n).map (fun k => (v :: vs).countP
        (fun x => histBinIndex (histExtent v vs).1 (histExtent v vs).2 n x
          = k))).sum = (v :: vs).length ∧
    (npEdges (histExtent v vs).1 (histExtent v vs).2 n).length = n + 1 ∧
    (∀ k, k < n + 1 →
      (npEdges (histExtent v vs).1 (histExtent v vs).2 n).getD k 0
        = (histExtent v vs).1
            + k * ((histExtent v vs).2 - (histExtent v vs).1) / n) ∧
    (listMin v vs < listMax v vs →
      histExtent v vs = (listMin v vs, listMax v vs) ∧
      (npEdges (listMin v vs) (listMax v vs) n).getD 0 0 = listMin v vs ∧
      (npEdges (listMin v vs) (listMax v vs) n).getD n 0 = listMax v vs ∧
      (∀ k, k < n → histBinIndex (listMin v vs) (listMax v vs) n
          (listMin v vs + k * (listMax v vs - listMin v vs) / n) = k) ∧
      histBinIndex (listMin v vs) (listMax v vs) n (listMax v vs) = n - 1) ∧
    (listMin v vs = listMax v vs →
      histExtent v vs = (listMin v vs - 1/2, listMin v vs + 1/2) ∧
      (∀ x ∈ v :: vs, x = listMin v vs) ∧
      histBinIndex (listMin v vs - 1/2) (listMin v vs + 1/2) n (listMin v vs)
        = n / 2) := by
  have hnq : (n : ℚ) ≠ 0 := Nat.cast_ne_zero.mpr (Nat.pos_iff_ne_zero.mp hn)
  refine ⟨?_, by simp, ?_, by simp [npEdges],
    fun k hk => npEdges_getD _ _ n k hk, ?_, ?_⟩
  · have hany : ((v :: vs).map some).any (fun x => x.isNone) = false := by
      simp
    have hfm : ((v :: vs).map some).filterMap id = v :: vs := by
      simp
    rw [npHistogram, hany]
    simp only [Bool.false_eq_true, if_false, hfm]
  · rw [sum_countP_range _ n (v :: vs)
      (fun x _ => histBinIndex_lt _ _ n hn x)]
  · intro hlt
    have hne : listMin v vs ≠ listMax v vs := ne_of_lt hlt
    refine ⟨by rw [histExtent, if_neg hne], ?_, ?_, ?_, ?_⟩
    · rw [npEdges_getD _ _ n 0 (by omega)]
      simp
    · rw [npEdges_getD _ _ n n (by omega)]
      field_simp
    · intro k hk
      exact histBinIndex_edge _ _ n k hn hk hlt
    · exact histBinIndex_max _ _ n hn hlt
  · intro heq
    refine ⟨by rw [histExtent, if_pos heq, ← heq], ?_,
      histBinIndex_degenerate _ n hn⟩
    intro x hx
    have h1 : listMin v vs ≤ x := by
      rcases List.mem_cons.mp hx with rfl | hx2
      · exact (foldl_min_le x vs).1
      · exact (foldl_min_le v vs).2 x hx2
    have h2 : x ≤ listMax v vs := by
      rcases List.mem_cons.mp hx with rfl | hx2
      · exact (le_foldl_max x vs).1
      · exact (le_foldl_max v vs).2 x hx2
    have h3 : x ≤ listMin v vs := by
      rw [heq]
      exact h2
    exact le_antisymm h3 h1

/-- Concrete instantiation of `C4_histogram_binning`, at the data
`[0, 1, 2]` with 2 bins for the non-degenerate branch (the maximum
lands in the last bin) and at the single value `[5]` with 4 bins for
the degenerate branch (the value lands in the middle bin `4 / 2`). -/
theorem C4_histogram_binning_witness :
    npHistogram ((0 :: [1, 2]).map some) 2
      = some ((List.range 2).map (fun k => (0 :: [1, 2] : List ℚ).countP
            (fun x => histBinIndex (histExtent 0 [1, 2]).1
              (histExtent 0 [1, 2]).2 2 x = k)),
          npEdges (histExtent 0 [1, 2]).1 (histExtent 0 [1, 2]).2 2) ∧
    histBinIndex (listMin 0 [1, 2]) (listMax 0 [1, 2]) 2 (listMax 0 [1, 2])
      = 1 ∧
    histBinIndex (listMin 5 [] - 1/2) (listMin 5 [] + 1/2) 4 (listMin 5 [])
      = 4 / 2 := by
  have h1 := C4_histogram_binning 0 [1, 2] 2 (by decide)
  have h2 := C4_histogram_binning 5 [] 4 (by decide)
  refine ⟨h1.1, ?_, ?_⟩
  · exact (h1.2.2.2.2.2.1 (by decide)).2.2.2.2
  · exact (h2.2.2.2.2.2.2 (by decide)).2.2

theorem gatherFlat_range (l : List (Option ℚ)) :
    gatherFlat l (List.range l.length) = l := by
  apply List.ext_getElem
  · simp only [gatherFlat, List.length_map, List.length_range]
  · intro i h1 h2
    simp only [gatherFlat, List.getElem_map, List.getElem_range]
    exact List.getD_eq_getElem l none h2

theorem map_some_filterMap (l : List (Option ℚ))
    (h : ∀ v ∈ l, v ≠ none) : (l.filterMap id).map some = l := by
  induction l with
  | nil => rfl
  | cons x l ih =>
    rcases x with _ | a
    · exact absurd rfl (h none (List.mem_cons_self _ _))
    · have hl : ∀ v ∈ l, v ≠ none := fun v hv => h v (List.mem_cons_of_mem _ hv)
      simp only [List.filterMap_cons, id, List.map_cons]
      rw [ih hl]

/-- Claim C8, counterexample. On the grid with values `[1, NaN]`, the
selection covering the whole flattened grid makes `update_histogram`
fail (`np.histogram` cannot auto-range over data containing NaN and
raises), while the histogram computed directly over the raw grid with
the NaNs removed succeeds — so the claimed equality is false: the code
does not drop NaNs before histogramming. -/
theorem C8_counterexample :
    update_histogram
        (List.range (gridFlatten ⟨[0], [0, 1], [[some 1, none]]⟩).length)
        (gridFlatten ⟨[0], [0, 1], [[some 1, none]]⟩) = none ∧
    npHistogram
        (((gridFlatten ⟨[0], [0, 1], [[some 1, none]]⟩).filterMap id).map some)
        histBins ≠ none := by
  constructor
  · decide
  · decide

/-- Claim C8, amended. For every sample grid with no NaN values, the
histogram of the selection covering the whole flattened grid equals the
histogram computed directly over the entire raw sample grid (with the
— here vacuous — NaN removal applied), because the values are gathered
from the original sample grid.  (With NaNs present the code errors
instead of dropping them; see the counterexample.) -/
theorem C8_full_selection_histogram (g : SampleGrid)
    (hne : gridFlatten g ≠ [])
    (hfin : ∀ v ∈ gridFlatten g, v ≠ none) :
    update_histogram (List.range (gridFlatten g).length) (gridFlatten g)
      = npHistogram (((gridFlatten g).filterMap id).map some) histBins := by
  rw [map_some_filterMap _ hfin]
  have hsel : List.range (gridFlatten g).length ≠ [] := by
    rw [ne_eq, List.range_eq_nil]
    exact fun h => hne (List.length_eq_zero.mp h)
  rw [update_histogram, if_pos hsel, gatherFlat_range]

/-- Concrete instantiation of `C8_full_selection_histogram` on the
NaN-free grid with values `[1, 5]`. -/
theorem C8_full_selection_histogram_witness :
    update_histogram
        (List.range (gridFlatten ⟨[0], [0, 1], [[some 1, some 5]]⟩).length)
        (gridFlatten ⟨[0], [0, 1], [[some 1, some 5]]⟩)
      = npHistogram
          (((gridFlatten ⟨[0], [0, 1], [[some 1, some 5]]⟩).filterMap id).map some)
          histBins :=
  C8_full_selection_histogram ⟨[0], [0, 1], [[some 1, some 5]]⟩
    (by decide) (by decide)

/-- The events the dashboard widgets feed into the view
(`create_controls`): a channel switch or colormap switch re-runs
`update_plot`, a box-selection change fires `selection_callback`. -/
inductive UiEvent where
  | channelChanged (channel : ℕ)
  | colormapChanged (colormap : ℕ)
  | selectionChanged (selection : List ℕ)

/-- One view's state: the two selector values, the displayed plot
(raster and color limits) and the histogram pane's data. -/
structure AppState where
  channel : ℕ
  colormap : ℕ
  plot : PlotResult
  histogram : Option (List ℕ × List ℚ)

/-- Embedding of the reactive wiring of `create_controls`
(plot-shaders.py, lines 72–94): a channel or colormap change re-runs
`create_plot` (a fresh rasterization); a selection change only runs
`selection_callback`, which re-reads and flattens the current
channel's raw sample grid and recomputes the histogram from
`sv_data.flatten()[selection]`. -/
def pipelineStep (grids : ℕ → SampleGrid) (cellOf : ℚ → ℚ → ℕ × ℕ)
    (s : AppState) : UiEvent → AppState
  | UiEvent.channelChanged ch =>
      { s with channel := ch, plot := create_plot cellOf (grids ch) }
  | UiEvent.colormapChanged cm =>
      { s with colormap := cm, plot := create_plot cellOf (grids s.channel) }
  | UiEvent.selectionChanged sel =>
      { s with histogram := update_histogram sel (gridFlatten (grids s.channel)) }

/-- A 1-ping grid with two range samples carrying values 1 and 5;
under the one-cell canvas both samples land in raster cell (0, 0). -/
def twoSampleGrid : SampleGrid := ⟨[0], [0, 1], [[some 1, some 5]]⟩

/-- Claim C6, counterexample. Refutes "reuses the current Raster's
contribution mapping": with both samples of `twoSampleGrid` aggregated
into raster cell (0, 0), selecting that one cell (selection `[0]`)
yields the histogram of `[1]` — the selection indices flat-index the
raw array — whereas gathering through the raster cell's contribution
list `[1, 5]` yields a different histogram. -/
theorem C6_counterexample :
    (pipelineStep (fun _ => twoSampleGrid) cellZero
        ⟨0, 0, create_plot cellZero twoSampleGrid, none⟩
        (UiEvent.selectionChanged [0])).histogram
      = npHistogram [some 1] histBins ∧
    contribVals cellZero (gridSamples twoSampleGrid) (0, 0) = [1, 5] ∧
    npHistogram [some 1] histBins
      ≠ npHistogram
          ((contribVals cellZero (gridSamples twoSampleGrid) (0, 0)).map some)
          histBins := by
  refine ⟨by decide, by decide, by decide⟩

/-- Claim C6, amended. A selection change recomputes only the
histogram: the displayed plot (raster and color limits) and both
selector values are unchanged — aggregation is not re-run — and the
new histogram is obtained by flat-indexing the freshly flattened raw
sample grid of the current channel with the selection indices (not
through a stored per-cell contribution mapping). -/
theorem C6_selection_change_histogram_only (grids : ℕ → SampleGrid)
    (cellOf : ℚ → ℚ → ℕ × ℕ) (s : AppState) (sel : List ℕ) :
    (pipelineStep grids cellOf s (UiEvent.selectionChanged sel)).plot = s.plot ∧
    (pipelineStep grids cellOf s (UiEvent.selectionChanged sel)).channel
      = s.channel ∧
    (pipelineStep grids cellOf s (UiEvent.selectionChanged sel)).colormap
      = s.colormap ∧
    (pipelineStep grids cellOf s (UiEvent.selectionChanged sel)).histogram
      = update_histogram sel (gridFlatten (grids s.channel)) :=
  ⟨rfl, rfl, rfl, rfl⟩

/-- An RGBA color with rational components in `[0, 1]`. -/
abbrev Color := ℚ × ℚ × ℚ × ℚ

/-- A matplotlib `ListedColormap` with clamp colors as built by
`_create_cmap` (app--old.py, lines 38–44): ordered anchor colors, the
`set_under` color, the `set_over` color, and the bad (NaN) color,
transparent by default. -/
structure ColorTable where
  anchors : List Color
  under : Color
  over : Color
  bad : Color

/-- matplotlib `Normalize(vmin, vmax)` without clipping. -/
def mpl_normalize (vmin vmax v : ℚ) : ℚ := (v - vmin) / (vmax - vmin)

/-- matplotlib `Colormap.__call__` on one value: a NaN is sent to the
bad color; otherwise the normalized value is scaled by the number `N`
of anchors, an exact hit of `N` is remapped to `N - 1`, negative scaled
values go to the under color, values `≥ N` to the over color, and the
rest are truncated to an anchor index. -/
def colormap_lookup (ct : ColorTable) (x : Option ℚ) : Color :=
  match x with
  | none => ct.bad
  | some x =>
    let N : ℚ := ct.anchors.length
    let xa := x * N
    let xb := if xa = N then N - 1 else xa
    if xb < 0 then ct.under
    else if N ≤ xb then ct.over
    else ct.anchors.getD xb.floor.toNat ct.bad

/-- The full colorization of one cell value: normalize against the
fixed display range (`clim`, e.g. `cmin=-75, cmax=-35` of plot2.py
line 50) and look it up in the color table. -/
def colorize (ct : ColorTable) (vmin vmax : ℚ) (v : Option ℚ) : Color :=
  colormap_lookup ct (v.map (fun w => mpl_normalize vmin vmax w))

/-- Scale an 8-bit RGB triple to the unit interval, alpha 1. -/
def rgb8 (r g b : ℚ) : Color := (r / 255, g / 255, b / 255, 1)

/-- The `ek500` table of app--old.py (lines 13–36): 11 anchor colors,
white under, dark-brown over, transparent bad. -/
def ek500 : ColorTable :=
  { anchors := [rgb8 159 159 159, rgb8 95 95 95, rgb8 0 0 255,
      rgb8 0 0 127, rgb8 0 191 0, rgb8 0 127 0, rgb8 255 255 0,
      rgb8 255 127 0, rgb8 255 0 191, rgb8 255 0 0, rgb8 166 83 60],
    under := (1, 1, 1, 1),
    over := (120 / 255, 60 / 255, 40 / 255, 1),
    bad := (0, 0, 0, 0) }

/-- Claim C5. Against a nonempty color table with bounds
`vmin < vmax`: NaN maps to the bad (transparent) color, a value below
`vmin` to the under color, a value above `vmax` to the over color, and
an in-range value to the anchor at index
`floor((v - vmin) / (vmax - vmin) * N)` clamped to `[0, N - 1]`; and in
particular, with `vmin = -75`, `vmax = -35` and the 11-color `ek500`
table, `-80` maps to the under color and `-30` to the over color. -/
theorem C5_colorize_clamping (ct : ColorTable) (vmin vmax v : ℚ)
    (hN : ct.anchors ≠ []) (hlt : vmin < vmax) :
    colorize ct vmin vmax none = ct.bad ∧
    (v < vmin → colorize ct vmin vmax (some v) = ct.under) ∧
    (vmax < v → colorize ct vmin vmax (some v) = ct.over) ∧
    (vmin ≤ v → v ≤ vmax →
      colorize ct vmin vmax (some v)
        = ct.anchors.getD
            (min ((mpl_normalize vmin vmax v * ct.anchors.length).floor.toNat)
              (ct.anchors.length - 1)) ct.bad) ∧
    colorize ek500 (-75) (-35) (some (-80)) = ek500.under ∧
    colorize ek500 (-75) (-35) (some (-30)) = ek500.over := by
  have hn : 0 < ct.anchors.length := List.length_pos.mpr hN
  have hN1 : (1 : ℚ) ≤ (ct.anchors.length : ℚ) := by exact_mod_cast hn
  have hN0 : (0 : ℚ) < (ct.anchors.length : ℚ) := by linarith
  have hd : (0 : ℚ) < vmax - vmin := sub_pos.mpr hlt
  refine ⟨rfl, ?_, ?_, ?_, by decide, by decide⟩
  · intro hv
    have hx : mpl_normalize vmin vmax v < 0 := by
      rw [mpl_normalize]
      exact div_neg_of_neg_of_pos (by linarith) hd
    have hxa : mpl_normalize vmin vmax v * ct.anchors.length < 0 :=
      mul_neg_of_neg_of_pos hx hN0
    simp only [colorize, Option.map_some', colormap_lookup]
    rw [if_neg (ne_of_lt (lt_of_lt_of_le hxa (le_of_lt hN0))),
      if_pos hxa]
  · intro hv
    have hx : 1 < mpl_normalize vmin vmax v := by
      rw [mpl_normalize]
      rw [lt_div_iff₀ hd]
      linarith
    have hxa : (ct.anchors.length : ℚ)
        < mpl_normalize vmin vmax v * ct.anchors.length := by
      calc (ct.anchors.length : ℚ)
          = 1 * ct.anchors.length := (one_mul _).symm
        _ < mpl_normalize vmin vmax v * ct.anchors.length :=
            mul_lt_mul_of_pos_right hx hN0
    simp only [colorize, Option.map_some', colormap_lookup]
    rw [if_neg (ne_of_gt hxa),
      if_neg (not_lt.mpr (le_of_lt (lt_trans hN0 hxa))),
      if_pos (le_of_lt hxa)]
  · intro hv1 hv2
    have hx0 : 0 ≤ mpl_normalize vmin vmax v := by
      rw [mpl_normalize]
      exact div_nonneg (by linarith) (le_of_lt hd)
    have hx1 : mpl_normalize vmin vmax v ≤ 1 := by
      rw [mpl_normalize]
      rw [div_le_one hd]
      linarith
    simp only [colorize, Option.map_some', colormap_lookup]
    by_cases hxaN : mpl_normalize vmin vmax v * ct.anchors.length
        = (ct.anchors.length : ℚ)
    · rw [if_pos hxaN, if_neg (not_lt.mpr (by linarith)),
        if_neg (not_le.mpr (by linarith))]
      have hcast : ((ct.anchors.length : ℚ)) - 1
          = ((ct.anchors.length - 1 : ℕ) : ℚ) := by
        rw [Nat.cast_sub (by omega)]
        norm_num
      rw [hcast, hxaN]
      simp only [ratFloor_eq_floor, Int.floor_natCast, Int.toNat_natCast]
      rw [min_eq_right (Nat.sub_le _ _)]
    · have hxale : mpl_normalize vmin vmax v * ct.anchors.length
          ≤ (ct.anchors.length : ℚ) := by
        calc mpl_normalize vmin vmax v * ct.anchors.length
            ≤ 1 * ct.anchors.length :=
              mul_le_mul_of_nonneg_right hx1 (le_of_lt hN0)
          _ = (ct.anchors.length : ℚ) := one_mul _
      have hxalt : mpl_normalize vmin vmax v * ct.anchors.length
          < (ct.anchors.length : ℚ) := lt_of_le_of_ne hxale hxaN
      have hxa0 : 0 ≤ mpl_normalize vmin vmax v * ct.anchors.length :=
        mul_nonneg hx0 (le_of_lt hN0)
      rw [if_neg hxaN, if_neg (not_lt.mpr hxa0), if_neg (not_le.mpr hxalt)]
      have hfl : ⌊mpl_normalize vmin vmax v * ct.anchors.length⌋
          < (ct.anchors.length : ℤ) := by
        rw [Int.floor_lt]
        exact_mod_cast hxalt
      simp only [ratFloor_eq_floor]
      rw [min_eq_left (by omega)]

/-- Concrete instantiation of `C5_colorize_clamping` at the `ek500`
table with `vmin = -75`, `vmax = -35` and the sample `-80`. -/
theorem C5_colorize_clamping_witness :
    colorize ek500 (-75) (-35) none = ek500.bad ∧
    colorize ek500 (-75) (-35) (some (-80)) = ek500.under := by
  have h := C5_colorize_clamping ek500 (-75) (-35) (-80)
    (by decide) (by norm_num)
  exact ⟨h.1, h.2.1 (by norm_num)⟩
